import Mathlib

/-!
Verification of the scraping pipeline implemented in `src/app.py`.

The Python source is shallowly embedded: pure string manipulation is
translated to functions on `List Char`, network effects (HTTP fetches,
the LLM call, the store) are passed in as explicit parameters, wall-clock
time is an explicit `Nat` argument, and the per-domain rate-limit table
is an explicit map from domain to entry.  Python's `\w` character class
is modelled on its ASCII fragment (letters, digits, underscore), which
covers every input considered here.
-/

/-! ## Python string helpers -/

/-- The whitespace characters matched by Python's `\s` (ASCII fragment). -/
def isPySpace (c : Char) : Bool :=
  c = ' ' || c = '\t' || c = '\n' || c = '\r' || c = '\x0b' || c = '\x0c'

/-- `isPre p s`: the list `p` is an initial segment of `s`. -/
def isPre : List Char → List Char → Bool
  | [], _ => true
  | _ :: _, [] => false
  | a :: p, b :: s => if a = b then isPre p s else false

/-- `isSub p s`: the list `p` occurs contiguously somewhere inside `s`. -/
def isSub (p : List Char) : List Char → Bool
  | [] => isPre p []
  | c :: t => isPre p (c :: t) || isSub p t

/-- `p` is an initial segment of `s` (propositional form). -/
def PreOf (p s : List Char) : Prop := ∃ t, s = p ++ t

/-- `q` is a final segment of `s`. -/
def SufOf (q s : List Char) : Prop := ∃ u, s = u ++ q

/-- `p` occurs contiguously inside `s`. -/
def SubOf (p s : List Char) : Prop := ∃ u v, s = u ++ p ++ v

/-- All final segments of a list (used to state decidable side conditions). -/
def sufs : List Char → List (List Char)
  | [] => [[]]
  | c :: t => (c :: t) :: sufs t

theorem isPre_iff (p s : List Char) : isPre p s = true ↔ PreOf p s := by
  induction p generalizing s with
  | nil => simp [isPre, PreOf]
  | cons a p ih =>
    cases s with
    | nil => simp [isPre, PreOf]
    | cons b s =>
      constructor
      · intro h
        simp only [isPre] at h
        split at h
        · rename_i hab
          obtain ⟨t, ht⟩ := (ih s).mp h
          exact ⟨t, by simp [hab, ht]⟩
        · exact absurd h (by simp)
      · rintro ⟨t, ht⟩
        simp only [List.cons_append, List.cons.injEq] at ht
        obtain ⟨rfl, ht⟩ := ht
        simp only [isPre, if_pos rfl]
        exact (ih _).mpr ⟨t, ht⟩

theorem isSub_iff (p s : List Char) : isSub p s = true ↔ SubOf p s := by
  induction s with
  | nil =>
    simp only [isSub, isPre_iff]
    constructor
    · rintro ⟨t, ht⟩
      exact ⟨[], t, by simpa using ht⟩
    · rintro ⟨u, v, huv⟩
      cases u with
      | cons a u => exact absurd huv (by simp)
      | nil => exact ⟨v, by simpa using huv⟩
  | cons c t ih =>
    simp only [isSub, Bool.or_eq_true, isPre_iff, ih]
    constructor
    · rintro (⟨w, hw⟩ | ⟨u, v, huv⟩)
      · exact ⟨[], w, by simpa using hw⟩
      · refine ⟨c :: u, v, ?_⟩
        simp [huv]
    · rintro ⟨u, v, huv⟩
      cases u with
      | nil => exact Or.inl ⟨v, by simpa using huv⟩
      | cons a u =>
        simp only [List.cons_append, List.cons.injEq] at huv
        exact Or.inr ⟨u, v, huv.2⟩

theorem mem_sufs_iff (q s : List Char) : q ∈ sufs s ↔ SufOf q s := by
  induction s with
  | nil =>
    simp only [sufs, List.mem_singleton]
    constructor
    · rintro rfl; exact ⟨[], rfl⟩
    · rintro ⟨u, hu⟩
      exact (List.append_eq_nil.mp hu.symm).2
  | cons c t ih =>
    simp only [sufs, List.mem_cons, ih]
    constructor
    · rintro (rfl | ⟨u, hu⟩)
      · exact ⟨[], rfl⟩
      · exact ⟨c :: u, by simp [hu]⟩
    · rintro ⟨u, hu⟩
      cases u with
      | nil => exact Or.inl (by simpa using hu.symm)
      | cons a u =>
        simp only [List.cons_append, List.cons.injEq] at hu
        exact Or.inr ⟨u, hu.2⟩

/-- Prefix of a concatenation: `p` stops inside `a`, or swallows all of `a`. -/
theorem pre_append {p a b : List Char} (h : PreOf p (a ++ b)) :
    PreOf p a ∨ ∃ p₂, p = a ++ p₂ ∧ PreOf p₂ b := by
  induction a generalizing p with
  | nil => exact Or.inr ⟨p, rfl, by simpa using h⟩
  | cons c a ih =>
    cases p with
    | nil => exact Or.inl ⟨c :: a, rfl⟩
    | cons d p =>
      obtain ⟨t, ht⟩ := h
      simp only [List.cons_append, List.cons.injEq] at ht
      obtain ⟨rfl, ht⟩ := ht
      rcases ih ⟨t, ht⟩ with ⟨w, hw⟩ | ⟨p₂, hp₂, hb⟩
      · exact Or.inl ⟨w, by simp [hw]⟩
      · exact Or.inr ⟨p₂, by simp [hp₂], hb⟩

/-- An occurrence in `c :: s` is at the head or inside `s`. -/
theorem sub_cons {p : List Char} {c : Char} {s : List Char}
    (h : SubOf p (c :: s)) : PreOf p (c :: s) ∨ SubOf p s := by
  obtain ⟨u, v, huv⟩ := h
  cases u with
  | nil => exact Or.inl ⟨v, by simpa using huv⟩
  | cons a u =>
    simp only [List.cons_append, List.cons.injEq] at huv
    exact Or.inr ⟨u, v, huv.2⟩

theorem sub_of_pre {p s : List Char} (h : PreOf p s) : SubOf p s := by
  obtain ⟨t, ht⟩ := h
  exact ⟨[], t, by simpa using ht⟩

theorem sub_cons_of_sub {p : List Char} (c : Char) {s : List Char}
    (h : SubOf p s) : SubOf p (c :: s) := by
  obtain ⟨u, v, huv⟩ := h
  exact ⟨c :: u, v, by simp [huv]⟩

theorem sub_append_right {p : List Char} (a : List Char) {b : List Char}
    (h : SubOf p b) : SubOf p (a ++ b) := by
  obtain ⟨u, v, huv⟩ := h
  exact ⟨a ++ u, v, by simp [huv]⟩

/-- Occurrence in a concatenation: inside `a`, inside `b`, or astride the seam. -/
theorem sub_append {p a b : List Char} (h : SubOf p (a ++ b)) :
    SubOf p a ∨ SubOf p b ∨
      ∃ p₁ p₂, p = p₁ ++ p₂ ∧ p₁ ≠ [] ∧ p₂ ≠ [] ∧ SufOf p₁ a ∧ PreOf p₂ b := by
  induction a generalizing p with
  | nil => exact Or.inr (Or.inl (by simpa using h))
  | cons c a ih =>
    rcases sub_cons (by simpa using h) with hpre | hsub
    · cases p with
      | nil => exact Or.inl ⟨[], c :: a, rfl⟩
      | cons d p =>
        obtain ⟨t, ht⟩ := hpre
        simp only [List.cons_append, List.cons.injEq] at ht
        obtain ⟨rfl, ht⟩ := ht
        rcases pre_append ⟨t, ht⟩ with ⟨w, hw⟩ | ⟨p₂, hp₂, hb⟩
        · refine Or.inl ⟨[], w, ?_⟩
          simp [hw]
        · cases p₂ with
          | nil =>
            refine Or.inl ⟨[], [], ?_⟩
            simp [hp₂]
          | cons e p₂ =>
            refine Or.inr (Or.inr ⟨c :: a, e :: p₂, ?_, by simp, by simp, ⟨[], rfl⟩, hb⟩)
            simp [hp₂]
    · rcases ih hsub with h1 | h2 | ⟨p₁, p₂, hsplit, h1n, h2n, ⟨u, hu⟩, hb⟩
      · exact Or.inl (sub_cons_of_sub c h1)
      · exact Or.inr (Or.inl h2)
      · exact Or.inr (Or.inr ⟨p₁, p₂, hsplit, h1n, h2n, ⟨c :: u, by simp [hu]⟩, hb⟩)

theorem sub_drop {p l : List Char} (n : Nat) (h : SubOf p (l.drop n)) : SubOf p l := by
  have := sub_append_right (b := l.drop n) (l.take n) h
  rwa [List.take_append_drop] at this

/-! ## Python `str.replace` (non-empty pattern scans leftmost, non-overlapping) -/

/-- Worker for `str.replace`.  The `Nat` argument is the number of characters
still to skip because they belong to an already-replaced match. -/
def pyRepGo (p r : List Char) : Nat → List Char → List Char
  | _, [] => []
  | 0, c :: t =>
    if isPre p (c :: t) then r ++ pyRepGo p r (p.length - 1) t
    else c :: pyRepGo p r 0 t
  | k + 1, _ :: t => pyRepGo p r k t

/-- Python's `s.replace(p, r)` (for the empty pattern Python interleaves `r`). -/
def pyReplace (s p r : List Char) : List Char :=
  if p = [] then r ++ s.flatMap (fun c => c :: r) else pyRepGo p r 0 s

/-- Python's `str.strip()` restricted to the `\s` whitespace set. -/
def pyStrip (l : List Char) : List Char :=
  ((l.dropWhile isPySpace).reverse.dropWhile isPySpace).reverse

theorem dropWhile_decomp (f : Char → Bool) (l : List Char) :
    ∃ u, l = u ++ l.dropWhile f := by
  induction l with
  | nil => exact ⟨[], rfl⟩
  | cons c t ih =>
    by_cases hc : f c
    · obtain ⟨u, hu⟩ := ih
      refine ⟨c :: u, ?_⟩
      simp only [List.dropWhile_cons, hc, if_pos]
      simpa using congrArg (c :: ·) hu
    · exact ⟨[], by simp [List.dropWhile_cons, hc]⟩

theorem pyStrip_sub {q l : List Char} (h : SubOf q (pyStrip l)) : SubOf q l := by
  obtain ⟨u, hu⟩ := dropWhile_decomp isPySpace l
  obtain ⟨w, hw⟩ := dropWhile_decomp isPySpace (l.dropWhile isPySpace).reverse
  have hmid : l.dropWhile isPySpace = pyStrip l ++ w.reverse := by
    have h2 := congrArg List.reverse hw
    simpa [pyStrip] using h2
  obtain ⟨u', v', huv⟩ := h
  refine ⟨u ++ u', v' ++ w.reverse, ?_⟩
  rw [hu, hmid, huv]
  simp

theorem len_dropWhile_le (f : Char → Bool) (l : List Char) :
    (l.dropWhile f).length ≤ l.length := by
  induction l with
  | nil => simp
  | cons c t ih =>
    by_cases hc : f c
    · simp only [List.dropWhile_cons, hc, if_pos]
      exact Nat.le_succ_of_le ih
    · simp [List.dropWhile_cons, hc]

theorem pyStrip_len_le (l : List Char) : (pyStrip l).length ≤ l.length := by
  unfold pyStrip
  calc ((l.dropWhile isPySpace).reverse.dropWhile isPySpace).reverse.length
      = ((l.dropWhile isPySpace).reverse.dropWhile isPySpace).length := by
        simp
    _ ≤ (l.dropWhile isPySpace).reverse.length := len_dropWhile_le _ _
    _ = (l.dropWhile isPySpace).length := by simp
    _ ≤ l.length := len_dropWhile_le _ _

/-- `re.sub(r'\s+', ' ', ·)`: collapse every maximal whitespace run to one space. -/
def collapseSpaces : List Char → List Char
  | [] => []
  | [c] => if isPySpace c then [' '] else [c]
  | c :: d :: t =>
    if isPySpace c then
      (if isPySpace d then collapseSpaces (d :: t) else ' ' :: collapseSpaces (d :: t))
    else c :: collapseSpaces (d :: t)

/-- `re.sub(r'\n+', ' ', ·)`: collapse every maximal newline run to one space. -/
def collapseNewlines : List Char → List Char
  | [] => []
  | [c] => if c = '\n' then [' '] else [c]
  | c :: d :: t =>
    if c = '\n' then
      (if d = '\n' then collapseNewlines (d :: t) else ' ' :: collapseNewlines (d :: t))
    else c :: collapseNewlines (d :: t)

theorem collapseSpaces_len_le (l : List Char) :
    (collapseSpaces l).length ≤ l.length := by
  induction l with
  | nil => simp [collapseSpaces]
  | cons c t ih =>
    cases t with
    | nil => by_cases hc : isPySpace c <;> simp [collapseSpaces, hc]
    | cons d t' =>
      have hlen : (collapseSpaces (d :: t')).length ≤ t'.length + 1 := by
        simpa using ih
      by_cases hc : isPySpace c
      · by_cases hd : isPySpace d
        · have h2 : collapseSpaces (c :: d :: t') = collapseSpaces (d :: t') := by
            simp [collapseSpaces, hc, hd]
          rw [h2]; simp only [List.length_cons]; omega
        · have h2 : collapseSpaces (c :: d :: t') = ' ' :: collapseSpaces (d :: t') := by
            simp [collapseSpaces, hc, hd]
          rw [h2]; simp only [List.length_cons]; omega
      · have h2 : collapseSpaces (c :: d :: t') = c :: collapseSpaces (d :: t') := by
          simp [collapseSpaces, hc]
        rw [h2]; simp only [List.length_cons]; omega

theorem collapseNewlines_len_le (l : List Char) :
    (collapseNewlines l).length ≤ l.length := by
  induction l with
  | nil => simp [collapseNewlines]
  | cons c t ih =>
    cases t with
    | nil => by_cases hc : c = '\n' <;> simp [collapseNewlines, hc]
    | cons d t' =>
      have hlen : (collapseNewlines (d :: t')).length ≤ t'.length + 1 := by
        simpa using ih
      by_cases hc : c = '\n'
      · subst hc
        by_cases hd : d = '\n'
        · subst hd
          have h2 : collapseNewlines ('\n' :: '\n' :: t') = collapseNewlines ('\n' :: t') := by
            simp [collapseNewlines]
          rw [h2]; simp only [List.length_cons]; omega
        · have h2 : collapseNewlines ('\n' :: d :: t') = ' ' :: collapseNewlines (d :: t') := by
            simp [collapseNewlines, hd]
          rw [h2]; simp only [List.length_cons]; omega
      · have h2 : collapseNewlines (c :: d :: t') = c :: collapseNewlines (d :: t') := by
          simp [collapseNewlines, hc]
        rw [h2]; simp only [List.length_cons]; omega

/-- Python's `str.lower()` (ASCII fragment). -/
def lowerStr (s : String) : String := String.mk (s.data.map Char.toLower)

/-- `' '.join(·)` on character lists. -/
def joinSpace : List (List Char) → List Char
  | [] => []
  | [x] => x
  | x :: y :: t => x ++ ' ' :: joinSpace (y :: t)

theorem sub_nil {p : List Char} (h : SubOf p []) : p = [] := by
  obtain ⟨u, v, huv⟩ := h
  rcases List.append_eq_nil.mp huv.symm with ⟨h1, h2⟩
  exact (List.append_eq_nil.mp h1).2

theorem pyRepGo_skip (p r : List Char) : ∀ (k : Nat) (t : List Char),
    pyRepGo p r k t = pyRepGo p r 0 (t.drop k) := by
  intro k t
  induction t generalizing k with
  | nil => cases k <;> simp [pyRepGo]
  | cons c t ih =>
    cases k with
    | zero => simp
    | succ k => simpa [pyRepGo] using ih k

/-- After a replacement pass, any nonempty final segment `q` of `p` that is an
initial segment of the output was already an initial segment of the input
(past the skipped characters), provided `q` cannot start inside the
replacement text `r₂`. -/
theorem pyRepGo_pre (p p₂ r₂ : List Char)
    (c1 : ∀ q, SufOf q p → q ≠ [] → ¬ PreOf q r₂)
    (c2 : ¬ SubOf r₂ p) :
    ∀ (k : Nat) (s : List Char), ∀ q, SufOf q p → q ≠ [] →
      PreOf q (pyRepGo p₂ r₂ k s) → PreOf q (s.drop k) := by
  intro k s
  induction k, s using pyRepGo.induct p₂ r₂ with
  | case1 k =>
    intro q hq hne hpre
    rw [show pyRepGo p₂ r₂ k [] = [] from by cases k <;> simp [pyRepGo]] at hpre
    obtain ⟨t, ht⟩ := hpre
    exact absurd (List.append_eq_nil.mp ht.symm).1 hne
  | case2 c t hmatch _ =>
    intro q hq hne hpre
    rw [show pyRepGo p₂ r₂ 0 (c :: t) = r₂ ++ pyRepGo p₂ r₂ (p₂.length - 1) t from by
      simp [pyRepGo, hmatch]] at hpre
    rcases pre_append hpre with hr | ⟨q₂, hq₂, hpre₂⟩
    · exact absurd hr (c1 q hq hne)
    · obtain ⟨u, hu⟩ := hq
      exact absurd ⟨u, q₂, by rw [hu, hq₂]; simp⟩ c2
  | case3 c t hnom ih =>
    intro q hq hne hpre
    rw [show pyRepGo p₂ r₂ 0 (c :: t) = c :: pyRepGo p₂ r₂ 0 t from by
      simp [pyRepGo, hnom]] at hpre
    cases q with
    | nil => exact absurd rfl hne
    | cons d q' =>
      obtain ⟨w, hw⟩ := hpre
      simp only [List.cons_append, List.cons.injEq] at hw
      obtain ⟨rfl, hw⟩ := hw
      cases q' with
      | nil => exact ⟨t, by simp⟩
      | cons e q'' =>
        have hq'suf : SufOf (e :: q'') p := by
          obtain ⟨u, hu⟩ := hq
          exact ⟨u ++ [c], by simp [hu]⟩
        obtain ⟨w2, hw2⟩ := ih (e :: q'') hq'suf (by simp) ⟨w, hw⟩
        refine ⟨w2, ?_⟩
        simp only [List.drop_zero] at hw2 ⊢
        simp [hw2]
  | case4 k c t ih =>
    intro q hq hne hpre
    rw [show pyRepGo p₂ r₂ (k + 1) (c :: t) = pyRepGo p₂ r₂ k t from rfl] at hpre
    simpa using ih q hq hne hpre

/-- A replacement pass for pattern `p` removes every occurrence of `p`,
provided `p` cannot sit inside `r`, astride an `r`-seam, or overlap itself
through `r` (all side conditions are occurrence-free structural facts). -/
theorem pyRepGo_no_sub (p r : List Char) (hp : p ≠ [])
    (h1 : ¬ SubOf p r)
    (h4 : ∀ q, SufOf q p → q ≠ [] → ¬ PreOf q r)
    (h5 : ¬ SubOf r p)
    (h6 : ∀ a, SufOf a r → a ≠ [] → ¬ PreOf a p) :
    ∀ (k : Nat) (s : List Char), ¬ SubOf p (pyRepGo p r k s) := by
  intro k s
  induction k, s using pyRepGo.induct p r with
  | case1 k =>
    intro h
    rw [show pyRepGo p r k [] = [] from by cases k <;> simp [pyRepGo]] at h
    exact hp (sub_nil h)
  | case2 c t hmatch ih =>
    intro h
    rw [show pyRepGo p r 0 (c :: t) = r ++ pyRepGo p r (p.length - 1) t from by
      simp [pyRepGo, hmatch]] at h
    rcases sub_append h with hr | hx | ⟨p₁, p₂, hsplit, h1n, h2n, hsuf, hpre⟩
    · exact h1 hr
    · exact ih hx
    · exact h6 p₁ hsuf h1n ⟨p₂, hsplit⟩
  | case3 c t hnom ih =>
    intro h
    rw [show pyRepGo p r 0 (c :: t) = c :: pyRepGo p r 0 t from by
      simp [pyRepGo, hnom]] at h
    rcases sub_cons h with hpre | hx
    · cases p with
      | nil => exact hp rfl
      | cons d p' =>
        obtain ⟨w, hw⟩ := hpre
        simp only [List.cons_append, List.cons.injEq] at hw
        obtain ⟨rfl, hw⟩ := hw
        cases p' with
        | nil => exact hnom (by simp [isPre])
        | cons e p'' =>
          have hsuf : SufOf (e :: p'') (c :: e :: p'') := ⟨[c], rfl⟩
          obtain ⟨w2, hw2⟩ :=
            pyRepGo_pre (c :: e :: p'') (c :: e :: p'') r h4 h5 0 t (e :: p'')
              hsuf (by simp) ⟨w, hw⟩
          simp only [List.drop_zero] at hw2
          apply hnom
          rw [isPre_iff]
          exact ⟨w2, by simp [hw2]⟩
    · exact ih hx
  | case4 k c t ih =>
    intro h
    rw [show pyRepGo p r (k + 1) (c :: t) = pyRepGo p r k t from rfl] at h
    exact ih h

/-- A replacement pass for a different pattern `p₂` cannot create an
occurrence of `p`, under seam side conditions between `p`, `p₂`'s
replacement `r₂`. -/
theorem pyRepGo_pres (p p₂ r₂ : List Char)
    (c1 : ∀ q, SufOf q p → q ≠ [] → ¬ PreOf q r₂)
    (c2 : ¬ SubOf r₂ p)
    (c3 : ¬ SubOf p r₂)
    (c4 : ∀ a, SufOf a r₂ → a ≠ [] → ¬ PreOf a p) :
    ∀ (k : Nat) (s : List Char), ¬ SubOf p (s.drop k) → ¬ SubOf p (pyRepGo p₂ r₂ k s) := by
  intro k s
  induction k, s using pyRepGo.induct p₂ r₂ with
  | case1 k =>
    intro hs h
    rw [show pyRepGo p₂ r₂ k [] = [] from by cases k <;> simp [pyRepGo]] at h
    exact hs (by rw [sub_nil h]; exact ⟨[], [].drop k, by simp⟩)
  | case2 c t hmatch ih =>
    intro hs h
    rw [show pyRepGo p₂ r₂ 0 (c :: t) = r₂ ++ pyRepGo p₂ r₂ (p₂.length - 1) t from by
      simp [pyRepGo, hmatch]] at h
    rcases sub_append h with hr | hx | ⟨p₁, pb, hsplit, h1n, h2n, hsuf, hpre⟩
    · exact c3 hr
    · refine ih (fun hsub => ?_) hx
      exact hs (by simpa using sub_drop (p₂.length - 1) hsub |> sub_cons_of_sub c)
    · exact c4 p₁ hsuf h1n ⟨pb, hsplit⟩
  | case3 c t hnom ih =>
    intro hs h
    simp only [List.drop_zero] at hs
    rw [show pyRepGo p₂ r₂ 0 (c :: t) = c :: pyRepGo p₂ r₂ 0 t from by
      simp [pyRepGo, hnom]] at h
    rcases sub_cons h with hpre | hx
    · cases p with
      | nil => exact hs ⟨[], c :: t, by simp⟩
      | cons d p' =>
        obtain ⟨w, hw⟩ := hpre
        simp only [List.cons_append, List.cons.injEq] at hw
        obtain ⟨rfl, hw⟩ := hw
        cases p' with
        | nil => exact hs ⟨[], t, by simp⟩
        | cons e p'' =>
          have hsuf : SufOf (e :: p'') (c :: e :: p'') := ⟨[c], rfl⟩
          obtain ⟨w2, hw2⟩ :=
            pyRepGo_pre (c :: e :: p'') p₂ r₂ c1 c2 0 t (e :: p'')
              hsuf (by simp) ⟨w, hw⟩
          simp only [List.drop_zero] at hw2
          exact hs ⟨[], w2, by simp [hw2]⟩
    · refine ih (fun hsub => ?_) hx
      simp only [List.drop_zero] at hsub
      exact hs (sub_cons_of_sub c hsub)
  | case4 k c t ih =>
    intro hs h
    rw [show pyRepGo p₂ r₂ (k + 1) (c :: t) = pyRepGo p₂ r₂ k t from rfl] at h
    exact ih (by simpa using hs) h

/-- `str.replace` removes every occurrence of a non-empty pattern `p`
under the structural side conditions relating `p` and `r`. -/
theorem pyReplace_no_sub (s p r : List Char) (hp : p ≠ [])
    (h1 : ¬ SubOf p r)
    (h4 : ∀ q, SufOf q p → q ≠ [] → ¬ PreOf q r)
    (h5 : ¬ SubOf r p)
    (h6 : ∀ a, SufOf a r → a ≠ [] → ¬ PreOf a p) :
    ¬ SubOf p (pyReplace s p r) := by
  unfold pyReplace
  rw [if_neg hp]
  exact pyRepGo_no_sub p r hp h1 h4 h5 h6 0 s

/-- `str.replace` with a different non-empty pattern `p₂` cannot introduce an
occurrence of `p`. -/
theorem pyReplace_pres (s p p₂ r₂ : List Char) (hp₂ : p₂ ≠ [])
    (c1 : ∀ q, SufOf q p → q ≠ [] → ¬ PreOf q r₂)
    (c2 : ¬ SubOf r₂ p)
    (c3 : ¬ SubOf p r₂)
    (c4 : ∀ a, SufOf a r₂ → a ≠ [] → ¬ PreOf a p)
    (hs : ¬ SubOf p s) :
    ¬ SubOf p (pyReplace s p₂ r₂) := by
  unfold pyReplace
  rw [if_neg hp₂]
  exact pyRepGo_pres p p₂ r₂ c1 c2 c3 c4 0 s (by simpa using hs)

/-! ## Domain rate limiter (`check_rate_limit`, src/app.py lines 54-68) -/

/-- One entry of the `rate_limits` table: request count and window start. -/
structure RateEntry where
  count : Nat
  reset_time : Nat
deriving DecidableEq

/-- The `rate_limits` defaultdict, as a partial map from domain to entry.
A missing key is created on access with count 0 and window start "now". -/
abbrev RLState := String → Option RateEntry

/-- `check_rate_limit` from src/app.py: reset the window if more than 60
seconds have elapsed, increment the counter, allow while the count is at
most 60.  Time is in seconds; `now` is the current clock reading. -/
def check_rate_limit (st : RLState) (domain : String) (now : Nat) : Bool × RLState :=
  let e0 := match st domain with
    | some e => e
    | none => ⟨0, now⟩
  let e1 := if 60 < now - e0.reset_time then (⟨0, now⟩ : RateEntry) else e0
  let e2 : RateEntry := ⟨e1.count + 1, e1.reset_time⟩
  (decide (e2.count ≤ 60), fun x => if x = domain then some e2 else st x)

/-- A sequence of rate-limit checks for one domain at the given times. -/
def runCalls (domain : String) : List Nat → RLState → List Bool × RLState
  | [], st => ([], st)
  | t :: ts, st =>
    let p := check_rate_limit st domain t
    let q := runCalls domain ts p.2
    (p.1 :: q.1, q.2)

theorem check_rate_limit_in_window (st : RLState) (d : String) (now : Nat)
    (e : RateEntry) (hst : st d = some e) (hw : now - e.reset_time ≤ 60) :
    (check_rate_limit st d now).1 = decide (e.count + 1 ≤ 60) ∧
    (check_rate_limit st d now).2 d = some ⟨e.count + 1, e.reset_time⟩ := by
  simp only [check_rate_limit, hst]
  rw [if_neg (by omega : ¬ 60 < now - e.reset_time)]
  simp

theorem check_rate_limit_fresh (st : RLState) (d : String) (now : Nat)
    (hst : st d = none) :
    (check_rate_limit st d now).1 = true ∧
    (check_rate_limit st d now).2 d = some ⟨1, now⟩ := by
  simp only [check_rate_limit, hst]
  rw [if_neg (by omega : ¬ 60 < now - now)]
  simp

theorem check_rate_limit_reset (st : RLState) (d : String) (now : Nat)
    (e : RateEntry) (hst : st d = some e) (hw : 60 < now - e.reset_time) :
    (check_rate_limit st d now).1 = true ∧
    (check_rate_limit st d now).2 d = some ⟨1, now⟩ := by
  simp only [check_rate_limit, hst]
  rw [if_pos hw]
  simp

theorem runCalls_cons (d : String) (t : Nat) (ts : List Nat) (st : RLState) :
    runCalls d (t :: ts) st =
      ((check_rate_limit st d t).1 :: (runCalls d ts (check_rate_limit st d t).2).1,
       (runCalls d ts (check_rate_limit st d t).2).2) := rfl

theorem runCalls_all_true (d : String) :
    ∀ (ts : List Nat) (st : RLState) (c t0 : Nat),
      st d = some ⟨c, t0⟩ → (∀ t ∈ ts, t - t0 ≤ 60) → c + ts.length ≤ 60 →
      (runCalls d ts st).1 = List.replicate ts.length true ∧
      (runCalls d ts st).2 d = some ⟨c + ts.length, t0⟩ := by
  intro ts
  induction ts with
  | nil =>
    intro st c t0 h _ _
    exact ⟨rfl, by simpa [runCalls] using h⟩
  | cons t ts ih =>
    intro st c t0 hst hall hle
    obtain ⟨hb, hst'⟩ := check_rate_limit_in_window st d t ⟨c, t0⟩ hst (hall t (by simp))
    have hle' : c + 1 + ts.length ≤ 60 := by simp at hle; omega
    obtain ⟨ih1, ih2⟩ := ih _ (c + 1) t0 hst' (fun x hx => hall x (by simp [hx])) hle'
    constructor
    · rw [runCalls_cons]
      simp only [List.length_cons, List.replicate_succ]
      rw [hb, ih1]
      have : decide (c + 1 ≤ 60) = true := by simp; omega
      rw [this]
    · rw [runCalls_cons]
      simp only []
      rw [ih2]
      have : c + 1 + ts.length = c + (ts.length + 1) := by omega
      simp [this]

theorem runCalls_append (d : String) (ts1 ts2 : List Nat) (st : RLState) :
    runCalls d (ts1 ++ ts2) st =
      ((runCalls d ts1 st).1 ++ (runCalls d ts2 (runCalls d ts1 st).2).1,
       (runCalls d ts2 (runCalls d ts1 st).2).2) := by
  induction ts1 generalizing st with
  | nil => simp [runCalls]
  | cons t ts ih =>
    simp only [List.cons_append, runCalls_cons, ih]

/-- C4: for any domain with no prior state, 61 checks whose times all fall
within 60 seconds of the first check produce sixty `true` results followed
by one `false` (so the 61st check returns false); afterwards, as soon as
more than 60 seconds have elapsed since the window start, the next check
returns `true` again and the counter restarts at 1 (the domain behaves
as fresh). -/
theorem c4_rate_limit_window_and_reset (d : String) (st : RLState) (t0 : Nat)
    (rest : List Nat) (hfresh : st d = none) (hlen : rest.length = 60)
    (hwin : ∀ t ∈ rest, t - t0 ≤ 60) :
    (runCalls d (t0 :: rest) st).1 = List.replicate 60 true ++ [false] ∧
    (runCalls d (t0 :: rest) st).2 d = some ⟨61, t0⟩ ∧
    (∀ now, 60 < now - t0 →
      (check_rate_limit (runCalls d (t0 :: rest) st).2 d now).1 = true ∧
      (check_rate_limit (runCalls d (t0 :: rest) st).2 d now).2 d = some ⟨1, now⟩) := by
  obtain ⟨hb0, hst0⟩ := check_rate_limit_fresh st d t0 hfresh
  rcases List.eq_nil_or_concat rest with rfl | ⟨ys, y, rfl⟩
  · simp at hlen
  · simp only [List.concat_eq_append] at hlen hwin ⊢
    have hyslen : ys.length = 59 := by simp at hlen; omega
    have hwys : ∀ t ∈ ys, t - t0 ≤ 60 := fun t ht => hwin t (by simp [ht])
    obtain ⟨h1, h2⟩ := runCalls_all_true d ys (check_rate_limit st d t0).2 1 t0 hst0 hwys
      (by omega)
    have hwy : y - t0 ≤ 60 := hwin y (by simp)
    obtain ⟨hb3, hst3⟩ := check_rate_limit_in_window
      (runCalls d ys (check_rate_limit st d t0).2).2 d y ⟨1 + ys.length, t0⟩ h2 hwy
    have hout : runCalls d (t0 :: (ys ++ [y])) st =
        ((check_rate_limit st d t0).1 ::
          ((runCalls d ys (check_rate_limit st d t0).2).1 ++
            [(check_rate_limit (runCalls d ys (check_rate_limit st d t0).2).2 d y).1]),
         (check_rate_limit (runCalls d ys (check_rate_limit st d t0).2).2 d y).2) := by
      rw [runCalls_cons, runCalls_append]
      simp [runCalls_cons, runCalls]
    have hb3' : (check_rate_limit (runCalls d ys (check_rate_limit st d t0).2).2 d y).1
        = false := by
      rw [hb3, hyslen]
      simp
    have hfinal : (runCalls d (t0 :: (ys ++ [y])) st).2 d = some ⟨61, t0⟩ := by
      rw [hout]
      show (check_rate_limit (runCalls d ys (check_rate_limit st d t0).2).2 d y).2 d = _
      rw [hst3, hyslen]
    refine ⟨?_, hfinal, fun now hnow =>
      check_rate_limit_reset _ d now ⟨61, t0⟩ hfinal hnow⟩
    rw [hout]
    show (check_rate_limit st d t0).1 :: _ = _
    rw [hb0, h1, hb3', hyslen]
    simp [List.replicate_succ]

/-- Witness for C4 at a concrete domain, a fresh table and 61 calls at time 0. -/
theorem c4_rate_limit_window_and_reset_witness :
    (runCalls "example.com" (0 :: List.replicate 60 0) (fun _ => none)).1
      = List.replicate 60 true ++ [false] ∧
    (check_rate_limit (runCalls "example.com" (0 :: List.replicate 60 0)
      (fun _ => none)).2 "example.com" 100).1 = true := by
  have h := c4_rate_limit_window_and_reset "example.com" (fun _ => none) 0
    (List.replicate 60 0) rfl (by simp)
    (by intro t ht; simp at ht; omega)
  exact ⟨h.1, (h.2.2 100 (by omega)).1⟩

/-- C9: the counter is incremented on every in-window check, including one
that returns `false`; and once a check has returned `false`, any further
in-window check for that domain also returns `false`. -/
theorem c9_rate_limit_always_increments (st : RLState) (d : String)
    (now now' : Nat) (e : RateEntry) (hst : st d = some e)
    (hw : now - e.reset_time ≤ 60) (hw' : now' - e.reset_time ≤ 60) :
    (check_rate_limit st d now).2 d = some ⟨e.count + 1, e.reset_time⟩ ∧
    ((check_rate_limit st d now).1 = false →
      (check_rate_limit (check_rate_limit st d now).2 d now').1 = false) := by
  obtain ⟨hb, hst'⟩ := check_rate_limit_in_window st d now e hst hw
  refine ⟨hst', fun hfalse => ?_⟩
  rw [hb] at hfalse
  have hcount : ¬ (e.count + 1 ≤ 60) := by simpa using hfalse
  obtain ⟨hb', _⟩ := check_rate_limit_in_window _ d now' ⟨e.count + 1, e.reset_time⟩ hst' hw'
  rw [hb']
  simp only [decide_eq_false_iff_not]
  omega

/-- Witness for C9 with a counter already at 60. -/
theorem c9_rate_limit_always_increments_witness :
    (check_rate_limit (fun x => if x = "d.com" then some ⟨60, 0⟩ else none)
      "d.com" 5).2 "d.com" = some ⟨61, 0⟩ ∧
    (check_rate_limit (check_rate_limit
      (fun x => if x = "d.com" then some ⟨60, 0⟩ else none) "d.com" 5).2
      "d.com" 6).1 = false := by
  have h := c9_rate_limit_always_increments
    (fun x => if x = "d.com" then some ⟨60, 0⟩ else none)
    "d.com" 5 6 ⟨60, 0⟩ (by simp) (by omega) (by omega)
  exact ⟨h.1, h.2 (by decide)⟩

/-! ## Robots policy checker (`check_robots_permission`, src/app.py lines 122-148) -/

/-- Outcome of the `requests.get` of robots.txt: an exception, or a
response with a status code and a body. -/
inductive RobotsFetch where
  | err
  | ok (status : Nat) (body : String)

/-- `check_robots_permission` from src/app.py.  The robot-rules evaluation
`rp.can_fetch(USER_AGENT, url)` on a parsed body is the external collaborator
`can_fetch`; it is only consulted when the fetch returned status 200. -/
def check_robots_permission (fetch : RobotsFetch)
    (can_fetch : String → String → Bool) (url : String) : Bool :=
  match fetch with
  | .err => true
  | .ok status body => if status = 200 then can_fetch body url else true

/-- C5: whenever the robots.txt fetch fails — an exception (network error or
timeout) or any non-200 status — the checker fails open and returns `true`,
whatever the rules evaluator would have said. -/
theorem c5_robots_fail_open (fetch : RobotsFetch)
    (can_fetch : String → String → Bool) (url : String)
    (h : fetch = .err ∨ ∃ s b, fetch = .ok s b ∧ s ≠ 200) :
    check_robots_permission fetch can_fetch url = true := by
  rcases h with rfl | ⟨s, b, rfl, hs⟩
  · rfl
  · simp [check_robots_permission, hs]

/-- Witness for C5: a 404 on robots.txt with a rules evaluator that denies. -/
theorem c5_robots_fail_open_witness :
    check_robots_permission (.ok 404 "User-agent: *") (fun _ _ => false)
      "https://example.com/page" = true :=
  c5_robots_fail_open _ _ _ (Or.inr ⟨404, "User-agent: *", rfl, by decide⟩)

/-! ## Site permission evaluator (`check_site_permissions`, src/app.py lines 70-120) -/

/-- The HEAD probe response: the parsed `X-RateLimit-Remaining` header when
present, the status code, and the `Content-Type` header (empty when absent). -/
structure HeadResp where
  rateRemaining : Option Int
  status : Nat
  contentType : String

/-- The fixed candidate terms-of-service paths probed by the evaluator. -/
def tos_paths : List String := ["/terms", "/tos", "/terms-of-service", "/terms-and-conditions"]

/-- The terms-of-service probing loop: the first path that answers 200 wins;
an exception (`none`) or any other status moves to the next path. -/
def tosLoop (tosFetch : String → Option Nat) (base : String) : List String → Bool × String
  | [] => (true, "All permission checks passed")
  | pa :: ps =>
    match tosFetch (base ++ pa) with
    | some 200 => (true, "Warning: Please review Terms of Service at " ++ (base ++ pa))
    | _ => tosLoop tosFetch base ps

/-- `check_site_permissions` from src/app.py.  `robotsAllowed` is the result
of the robots check, `head` is the HEAD probe (`none` = RequestException),
`tosFetch` gives the status of the HEAD probe on each ToS candidate URL. -/
def check_site_permissions (robotsAllowed : Bool) (head : Option HeadResp)
    (tosFetch : String → Option Nat) (base : String) (netErrMsg : String) :
    Bool × String :=
  if robotsAllowed then
    match head with
    | none => (false, "Network error during permission check: " ++ netErrMsg)
    | some h =>
      if (match h.rateRemaining with | some n => decide (n ≤ 0) | none => false) then
        (false, "Rate limit exceeded")
      else if h.status = 403 then (false, "Access forbidden")
      else if h.status = 429 then (false, "Too many requests")
      else if h.status ≠ 200 then (false, "HTTP error: " ++ toString h.status)
      else if isSub ("text/html".data) ((lowerStr h.contentType).data) then
        tosLoop tosFetch base tos_paths
      else (false, "Unsupported content type: " ++ lowerStr h.contentType)
  else (false, "Blocked by robots.txt")

/-- C7: when robots allows the URL and the HEAD probe answers 403 with no
zero-or-negative `X-RateLimit-Remaining` header, the evaluator answers
`(false, "Access forbidden")`, and the answer does not depend on the
terms-of-service prober at all (no ToS path is consulted). -/
theorem c7_forbidden_before_tos (rl : Option Int) (ct : String)
    (tosFetch : String → Option Nat) (base netErrMsg : String)
    (hrl : rl = none ∨ ∃ n, rl = some n ∧ 0 < n) :
    check_site_permissions true (some ⟨rl, 403, ct⟩) tosFetch base netErrMsg
      = (false, "Access forbidden") := by
  rcases hrl with rfl | ⟨n, rfl, hn⟩
  · simp [check_site_permissions]
  · simp [check_site_permissions, show ¬ (n ≤ 0) from by omega]

/-- Witness for C7: a 403 probe and a ToS prober that would answer 200 on
every path, which the evaluator never consults. -/
theorem c7_forbidden_before_tos_witness :
    check_site_permissions true (some ⟨none, 403, "text/html"⟩)
      (fun _ => some 200) "https://example.com" "" = (false, "Access forbidden") :=
  c7_forbidden_before_tos none "text/html" (fun _ => some 200)
    "https://example.com" "" (Or.inl rfl)

/-! ## Content extractor (`extract_text_from_url`, src/app.py lines 150-237) -/

/-- The parsed page after BeautifulSoup parsing and removal of
script/style/iframe/noscript, abstracted by the text each extraction
method reads: `selectorTexts` are the `get_text(' ', strip=True)` values
of the elements matched by the priority selector list, `semanticTexts`
those of article/main/section elements, `paragraphTexts` the
`get_text(strip=True)` of `<p>` elements, `divTexts` those of `<div>`
elements, and `allText` is `soup.get_text(' ', strip=True)`. -/
structure Soup where
  selectorTexts : List String
  semanticTexts : List String
  paragraphTexts : List String
  divTexts : List String
  allText : String

/-- The content-selection cascade (methods 1-5 of `extract_text_from_url`):
the first stage that collects anything wins. -/
def mainContent (s : Soup) : List String :=
  if s.selectorTexts.filter (fun x => decide (x ≠ "")) = [] then
    if s.semanticTexts.filter (fun x => decide (x ≠ "" ∧ 100 < x.length)) = [] then
      if s.paragraphTexts.filter (fun x => decide (x ≠ "" ∧ 50 < x.length)) = [] then
        if s.divTexts.filter (fun x => decide (x ≠ "" ∧ 100 < x.length)) = [] then
          if s.allText = "" then [] else [s.allText]
        else s.divTexts.filter (fun x => decide (x ≠ "" ∧ 100 < x.length))
      else s.paragraphTexts.filter (fun x => decide (x ≠ "" ∧ 50 < x.length))
    else s.semanticTexts.filter (fun x => decide (x ≠ ""))
  else s.selectorTexts.filter (fun x => decide (x ≠ ""))

/-- `' '.join(main_content)` followed by the two `re.sub` cleanups and
`strip()`, as in lines 221-227 of src/app.py. -/
def cleanedText (s : Soup) : List Char :=
  pyStrip (collapseNewlines (collapseSpaces (joinSpace ((mainContent s).map String.data))))

/-- The tail of `extract_text_from_url` after the page was fetched and
parsed: combine, clean, and keep the first 12000 characters when the
cleaned text is longer than 100 characters. -/
def extractFromSoup (s : Soup) : Except String String :=
  if mainContent s = [] then .error "No substantial content found on page"
  else if 100 < (cleanedText s).length then .ok (String.mk ((cleanedText s).take 12000))
  else .error "No substantial content found on page"

instance : DecidableEq (Except String String)
  | .error a, .error b =>
    if h : a = b then .isTrue (by rw [h]) else .isFalse (by simp [h])
  | .error _, .ok _ => .isFalse (by simp)
  | .ok _, .error _ => .isFalse (by simp)
  | .ok a, .ok b =>
    if h : a = b then .isTrue (by rw [h]) else .isFalse (by simp [h])

/-- Outcome of `requests.get(url, ...)` plus `raise_for_status()`:
an exception carrying a message, or a content type and the parsed page. -/
inductive PageFetch where
  | err (msg : String)
  | ok (contentType : String) (soup : Soup)

/-- `extract_text_from_url` from src/app.py, with the robots answer and the
fetch outcome as explicit inputs. -/
def extract_text_from_url (robotsAllowed : Bool) (page : PageFetch) :
    Except String String :=
  if robotsAllowed then
    match page with
    | .err m => .error ("Network error: " ++ m)
    | .ok ct soup =>
      if isSub ("text/html".data) ((lowerStr ct).data) then extractFromSoup soup
      else .error ("Unsupported content type: " ++ lowerStr ct)
  else .error "Scraping disallowed by robots.txt"

theorem mainContent_empty_cleaned (s : Soup) (h : mainContent s = []) :
    cleanedText s = [] := by
  unfold cleanedText
  rw [h]
  rfl

/-- C6: whenever the cleaned combined text is longer than 12000 characters
the extractor succeeds and returns exactly its first 12000 characters, and
any text the extractor ever returns has length at most 12000. -/
theorem c6_truncation_to_12000 (s : Soup) :
    (12000 < (cleanedText s).length →
      extractFromSoup s = .ok (String.mk ((cleanedText s).take 12000))) ∧
    (∀ t, extractFromSoup s = .ok t → t.length ≤ 12000) := by
  constructor
  · intro h
    have hmc : ¬ mainContent s = [] := by
      intro hmc
      rw [mainContent_empty_cleaned s hmc] at h
      simp at h
    unfold extractFromSoup
    rw [if_neg hmc, if_pos (by omega)]
  · intro t ht
    unfold extractFromSoup at ht
    split at ht
    · simp at ht
    · split at ht
      · injection ht with h
        subst h
        show ((cleanedText s).take 12000).length ≤ 12000
        rw [List.length_take]
        omega
      · simp at ht

theorem stringMk_ne_empty {l : List Char} (h : l ≠ []) : String.mk l ≠ "" := by
  intro he
  exact h (congrArg String.data he)

theorem collapseSpaces_no_ws (l : List Char) (h : ∀ c ∈ l, isPySpace c = false) :
    collapseSpaces l = l := by
  induction l with
  | nil => rfl
  | cons c t ih =>
    cases t with
    | nil => simp [collapseSpaces, h c (by simp)]
    | cons d t' =>
      rw [show collapseSpaces (c :: d :: t') = c :: collapseSpaces (d :: t') from by
        simp [collapseSpaces, h c (by simp)]]
      rw [ih (fun x hx => h x (by simp [hx]))]

theorem collapseNewlines_no_nl (l : List Char) (h : ∀ c ∈ l, c ≠ '\n') :
    collapseNewlines l = l := by
  induction l with
  | nil => rfl
  | cons c t ih =>
    have hc : ¬ c = '\n' := h c (by simp)
    cases t with
    | nil => simp [collapseNewlines, hc]
    | cons d t' =>
      rw [show collapseNewlines (c :: d :: t') = c :: collapseNewlines (d :: t') from by
        simp [collapseNewlines, hc]]
      rw [ih (fun x hx => h x (by simp [hx]))]

theorem pyStrip_no_ws (l : List Char) (h : ∀ c ∈ l, isPySpace c = false) :
    pyStrip l = l := by
  unfold pyStrip
  have h1 : l.dropWhile isPySpace = l := by
    cases l with
    | nil => rfl
    | cons c t => simp [List.dropWhile_cons, h c (by simp)]
  rw [h1]
  have h2 : l.reverse.dropWhile isPySpace = l.reverse := by
    cases hrev : l.reverse with
    | nil => rfl
    | cons c t =>
      have hc : c ∈ l := by
        rw [← List.mem_reverse, hrev]
        simp
      simp [List.dropWhile_cons, h c hc]
  rw [h2, List.reverse_reverse]

/-- Witness for C6: a page whose whole text is 12001 letters `a`. -/
theorem c6_truncation_to_12000_witness :
    12000 < (cleanedText ⟨[], [], [], [], String.mk (List.replicate 12001 'a')⟩).length ∧
    extractFromSoup ⟨[], [], [], [], String.mk (List.replicate 12001 'a')⟩ =
      .ok (String.mk ((cleanedText
        ⟨[], [], [], [], String.mk (List.replicate 12001 'a')⟩).take 12000)) := by
  have hnws : ∀ c ∈ List.replicate 12001 'a', isPySpace c = false := by
    intro c hc
    rw [List.eq_of_mem_replicate hc]
    decide
  have hne : String.mk (List.replicate 12001 'a') ≠ "" := by
    apply stringMk_ne_empty
    intro h
    have := congrArg List.length h
    rw [List.length_replicate, List.length_nil] at this
    exact absurd this (by omega)
  have hmc : mainContent ⟨[], [], [], [], String.mk (List.replicate 12001 'a')⟩
      = [String.mk (List.replicate 12001 'a')] := by
    unfold mainContent
    simp only [List.filter_nil, if_pos rfl]
    rw [if_neg hne]
    simp only [if_true]
  have hclean : cleanedText ⟨[], [], [], [], String.mk (List.replicate 12001 'a')⟩
      = List.replicate 12001 'a' := by
    unfold cleanedText
    rw [hmc]
    rw [show joinSpace ([String.mk (List.replicate 12001 'a')].map String.data)
        = List.replicate 12001 'a' from rfl]
    rw [collapseSpaces_no_ws _ hnws]
    rw [collapseNewlines_no_nl _ (by
      intro c hc
      rw [List.eq_of_mem_replicate hc]
      simp)]
    rw [pyStrip_no_ws _ hnws]
  have hlen : 12000 <
      (cleanedText ⟨[], [], [], [], String.mk (List.replicate 12001 'a')⟩).length := by
    rw [hclean, List.length_replicate]
    omega
  exact ⟨hlen, (c6_truncation_to_12000 _).1 hlen⟩

/-- C3 (amended): for a page whose only collected content is one paragraph
of more than 50 and at most 100 characters (stages a and b collect
nothing), stage c of the cascade does select exactly that paragraph's
text, but the extractor then fails with "No substantial content found on
page" because the cleaned text does not exceed 100 characters — it does
not succeed with the paragraph text. -/
theorem c3_sixty_char_paragraph (s : Soup) (t : String)
    (h1 : s.selectorTexts.filter (fun x => decide (x ≠ "")) = [])
    (h2 : s.semanticTexts.filter (fun x => decide (x ≠ "" ∧ 100 < x.length)) = [])
    (h3 : s.paragraphTexts = [t])
    (h4 : 50 < t.length) (h5 : t.length ≤ 100) :
    mainContent s = [t] ∧
    extractFromSoup s = .error "No substantial content found on page" := by
  have htne : t ≠ "" := by
    intro he
    rw [he] at h4
    simp at h4
  have hm3 : [t].filter (fun x => decide (x ≠ "" ∧ 50 < x.length)) = [t] := by
    rw [List.filter_cons, if_pos (by simp [htne, h4] : decide (t ≠ "" ∧ 50 < t.length) = true)]
    simp
  have hmc : mainContent s = [t] := by
    unfold mainContent
    rw [h1, if_pos rfl, h2, if_pos rfl, h3, hm3]
    rw [if_neg (by simp : ¬ ([t] = []))]
  refine ⟨hmc, ?_⟩
  have hlen : (cleanedText s).length ≤ 100 := by
    unfold cleanedText
    rw [hmc]
    rw [show joinSpace ([t].map String.data) = t.data from rfl]
    calc (pyStrip (collapseNewlines (collapseSpaces t.data))).length
        ≤ (collapseNewlines (collapseSpaces t.data)).length := pyStrip_len_le _
      _ ≤ (collapseSpaces t.data).length := collapseNewlines_len_le _
      _ ≤ t.data.length := collapseSpaces_len_le _
      _ ≤ 100 := h5
  unfold extractFromSoup
  rw [if_neg (by rw [hmc]; simp), if_neg (by omega)]

/-- Counterexample to C3 as stated: the page whose only content is the
60-character paragraph below reaches stage c, which collects exactly that
paragraph, yet the extractor errors instead of succeeding with it. -/
theorem c3_sixty_char_paragraph_counterexample :
    ("A single paragraph of exactly sixty characters for the test.").length = 60 ∧
    mainContent ⟨[], [], ["A single paragraph of exactly sixty characters for the test."],
        [], "A single paragraph of exactly sixty characters for the test."⟩
      = ["A single paragraph of exactly sixty characters for the test."] ∧
    extract_text_from_url true (.ok "text/html"
        ⟨[], [], ["A single paragraph of exactly sixty characters for the test."],
          [], "A single paragraph of exactly sixty characters for the test."⟩)
      = .error "No substantial content found on page" := by
  refine ⟨by decide, by decide, by decide⟩

/-- Witness for the amended C3 at the same 60-character paragraph. -/
theorem c3_sixty_char_paragraph_witness :
    mainContent ⟨[], [], ["A single paragraph of exactly sixty characters for the test."],
        [], "A single paragraph of exactly sixty characters for the test."⟩
      = ["A single paragraph of exactly sixty characters for the test."] ∧
    extractFromSoup ⟨[], [],
        ["A single paragraph of exactly sixty characters for the test."],
        [], "A single paragraph of exactly sixty characters for the test."⟩
      = .error "No substantial content found on page" :=
  c3_sixty_char_paragraph _ _ rfl rfl rfl (by decide) (by decide)

/-! ## Contact info normalizer (`clean_contact_info`, src/app.py lines 313-345) -/

/-- Python `\w` (ASCII fragment): letters, digits, underscore. -/
def isPyWord (c : Char) : Bool := c.isAlphanum || c = '_'

/-- The character class `[\w\.-]` of the email pattern. -/
def isEmailChar (c : Char) : Bool := isPyWord c || c = '.' || c = '-'

/-- Backtracking split of the domain run for `[\w\.-]+\.\w+`: the rightmost
dot followed by at least one word character wins; returns the run before
that dot and the maximal word run after it. -/
def splitDomain : List Char → Option (List Char × List Char)
  | [] => none
  | c :: rest =>
    match splitDomain rest with
    | some (pre, w) => some (c :: pre, w)
    | none =>
      if c = '.' then
        (if rest.takeWhile isPyWord = [] then none
         else some ([], rest.takeWhile isPyWord))
      else none

/-- One anchored attempt of the pattern `[\w\.-]+@[\w\.-]+\.\w+` at the head
of `s`, following the regex engine's greedy matching with backtracking.
Returns the matched text when the attempt succeeds. -/
def matchEmailAt (s : List Char) : Option (List Char) :=
  let loc := s.takeWhile isEmailChar
  if loc = [] then none
  else
    match s.drop loc.length with
    | '@' :: rest2 =>
      match splitDomain (rest2.takeWhile isEmailChar) with
      | some (pre, w) =>
        if pre = [] then none else some (loc ++ '@' :: (pre ++ '.' :: w))
      | none => none
    | _ => none

/-- The `re.findall` scanning loop: try every position left to right and
resume after the end of each match; the `Nat` counts characters still
inside the last match. -/
def findallGo : Nat → List Char → List (List Char)
  | _, [] => []
  | k + 1, _ :: t => findallGo k t
  | 0, c :: t =>
    match matchEmailAt (c :: t) with
    | some m => m :: findallGo (m.length - 1) t
    | none => findallGo 0 t

/-- `re.findall(r'[\w\.-]+@[\w\.-]+\.\w+', ·)`. -/
def findallEmail (l : List Char) : List (List Char) := findallGo 0 l

/-- `email.replace('@', '[at]')`. -/
def obfAt (e : List Char) : List Char := pyReplace e ['@'] ("[at]".data)

/-- `email.replace('@', '&#64;')`. -/
def obfHtml (e : List Char) : List Char := pyReplace e ['@'] ("&#64;".data)

/-- The repair step for one detected email (lines 335-340): replace its
`[at]`-obfuscated form, then its HTML-encoded form, by the plain email. -/
def emailRepl (acc : List Char) (e : List Char) : List Char :=
  pyReplace (pyReplace acc (obfAt e) e) (obfHtml e) e

/-- `clean_contact_info` from src/app.py.  The argument models
`extracted_data.get('contact_email')`; `none` is Python `None`, and the
`if not contact_info` guard is also taken by the empty string. -/
def clean_contact_info (contact_info : Option String) : String :=
  match contact_info with
  | none => "Unknown"
  | some s =>
    if s.data = [] then "Unknown"
    else
      let base := collapseSpaces (pyReplace s.data ['\\', 'n'] [' '])
      match findallEmail s.data with
      | [] => String.mk (pyStrip base)
      | emails => String.mk (pyStrip (emails.foldl emailRepl base))

theorem string_data_nil {s : String} (h : s.data = []) : s = "" :=
  congrArg String.mk h

theorem isSub_eq_false_of {p s : List Char} (h : ¬ SubOf p s) : isSub p s = false := by
  cases hb : isSub p s
  · rfl
  · exact absurd ((isSub_iff _ _).mp hb) h

theorem isSub_false_elim {p s : List Char} (h : isSub p s = false) : ¬ SubOf p s := by
  intro hs
  have := (isSub_iff p s).mpr hs
  rw [h] at this
  cases this

theorem isPre_false_elim {p s : List Char} (h : isPre p s = false) : ¬ PreOf p s := by
  intro hs
  have := (isPre_iff p s).mpr hs
  rw [h] at this
  cases this

theorem findallGo_no_emailchar (l : List Char)
    (h : ∀ c ∈ l, isEmailChar c = false) : findallGo 0 l = [] := by
  induction l with
  | nil => rfl
  | cons c t ih =>
    have hm : matchEmailAt (c :: t) = none := by
      simp [matchEmailAt, List.takeWhile_cons, h c (by simp)]
    rw [show findallGo 0 (c :: t) = findallGo 0 t from by simp [findallGo, hm]]
    exact ih (fun x hx => h x (by simp [hx]))

theorem isPySpace_not_emailchar {c : Char} (h : isPySpace c = true) :
    isEmailChar c = false := by
  have hcases : c = ' ' ∨ c = '\t' ∨ c = '\n' ∨ c = '\r' ∨ c = '\x0b' ∨ c = '\x0c' := by
    simp only [isPySpace, Bool.or_eq_true, decide_eq_true_eq] at h
    tauto
  rcases hcases with rfl | rfl | rfl | rfl | rfl | rfl <;> decide

theorem pyRepGo_no_head (a : Char) (p' r : List Char) :
    ∀ l, (∀ c ∈ l, c ≠ a) → pyRepGo (a :: p') r 0 l = l := by
  intro l
  induction l with
  | nil => intro _; rfl
  | cons c t ih =>
    intro h
    have hac : ¬ (a = c) := fun he => (h c (by simp)) he.symm
    rw [show pyRepGo (a :: p') r 0 (c :: t) = c :: pyRepGo (a :: p') r 0 t from by
      simp [pyRepGo, isPre, hac]]
    rw [ih (fun x hx => h x (by simp [hx]))]

theorem collapseSpaces_all_ws (l : List Char) (hne : l ≠ [])
    (h : ∀ c ∈ l, isPySpace c = true) : collapseSpaces l = [' '] := by
  induction l with
  | nil => exact absurd rfl hne
  | cons c t ih =>
    cases t with
    | nil => simp [collapseSpaces, h c (by simp)]
    | cons d t' =>
      rw [show collapseSpaces (c :: d :: t') = collapseSpaces (d :: t') from by
        simp [collapseSpaces, h c (by simp), h d (by simp)]]
      exact ih (by simp) (fun x hx => h x (by simp [hx]))

/-- C10: a non-empty contact field consisting only of whitespace characters
is cleaned to the empty string, not to "Unknown" — the "Unknown" branch is
taken only for an empty or absent input. -/
theorem c10_whitespace_only_empty (s : String) (hne : s ≠ "")
    (hws : ∀ c ∈ s.data, isPySpace c = true) :
    clean_contact_info (some s) = "" := by
  have hd : s.data ≠ [] := fun h => hne (string_data_nil h)
  have hnoem : findallEmail s.data = [] :=
    findallGo_no_emailchar s.data (fun c hc => isPySpace_not_emailchar (hws c hc))
  have hrep : pyReplace s.data ['\\', 'n'] [' '] = s.data := by
    unfold pyReplace
    rw [if_neg (by simp)]
    exact pyRepGo_no_head '\\' ['n'] [' '] s.data (fun c hc => by
      intro he
      have := hws c hc
      rw [he] at this
      exact absurd this (by decide))
  simp only [clean_contact_info]
  rw [if_neg hd, hnoem]
  show String.mk (pyStrip (collapseSpaces (pyReplace s.data ['\\', 'n'] [' ']))) = ""
  rw [hrep, collapseSpaces_all_ws s.data hd hws]
  decide

/-- Witness for C10 at a three-character whitespace string. -/
theorem c10_whitespace_only_empty_witness :
    clean_contact_info (some "  \t") = "" :=
  c10_whitespace_only_empty "  \t" (by decide) (by decide)

/-- C8 (amended): an absent or empty contact field yields exactly "Unknown";
when the email pattern detects exactly the plain email `e`, the normalizer
replaces the leftmost non-overlapping occurrences of `e`'s `[at]`-obfuscated
and `&#64;`-encoded forms by `e`, and — provided neither obfuscated form can
overlap the plain address or sit astride a replacement seam (the decidable
border conditions below, which fail for self-overlapping addresses such as
`a@b.a`) — the cleaned output contains no obfuscated occurrence of `e`.
Without those conditions an overlapping obfuscated occurrence can survive
in the output. -/
theorem c8_obfuscation_repair (s e : String)
    (hemails : findallEmail s.data = [e.data])
    (hatne : obfAt e.data ≠ []) (hhtmlne : obfHtml e.data ≠ [])
    (h1a : isSub (obfAt e.data) e.data = false)
    (h2a : ∀ q ∈ sufs (obfAt e.data), q ≠ [] → isPre q e.data = false)
    (h3a : isSub e.data (obfAt e.data) = false)
    (h4a : ∀ a ∈ sufs e.data, a ≠ [] → isPre a (obfAt e.data) = false)
    (h1h : isSub (obfHtml e.data) e.data = false)
    (h2h : ∀ q ∈ sufs (obfHtml e.data), q ≠ [] → isPre q e.data = false)
    (h3h : isSub e.data (obfHtml e.data) = false)
    (h4h : ∀ a ∈ sufs e.data, a ≠ [] → isPre a (obfHtml e.data) = false) :
    clean_contact_info none = "Unknown" ∧
    clean_contact_info (some "") = "Unknown" ∧
    isSub (obfAt e.data) (clean_contact_info (some s)).data = false ∧
    isSub (obfHtml e.data) (clean_contact_info (some s)).data = false := by
  have hsd : s.data ≠ [] := by
    intro h
    rw [h] at hemails
    simp [findallEmail, findallGo] at hemails
  have H1a : ¬ SubOf (obfAt e.data) e.data := isSub_false_elim h1a
  have H2a : ∀ q, SufOf q (obfAt e.data) → q ≠ [] → ¬ PreOf q e.data :=
    fun q hq hn => isPre_false_elim (h2a q ((mem_sufs_iff _ _).mpr hq) hn)
  have H3a : ¬ SubOf e.data (obfAt e.data) := isSub_false_elim h3a
  have H4a : ∀ a, SufOf a e.data → a ≠ [] → ¬ PreOf a (obfAt e.data) :=
    fun a ha hn => isPre_false_elim (h4a a ((mem_sufs_iff _ _).mpr ha) hn)
  have H1h : ¬ SubOf (obfHtml e.data) e.data := isSub_false_elim h1h
  have H2h : ∀ q, SufOf q (obfHtml e.data) → q ≠ [] → ¬ PreOf q e.data :=
    fun q hq hn => isPre_false_elim (h2h q ((mem_sufs_iff _ _).mpr hq) hn)
  have H3h : ¬ SubOf e.data (obfHtml e.data) := isSub_false_elim h3h
  have H4h : ∀ a, SufOf a e.data → a ≠ [] → ¬ PreOf a (obfHtml e.data) :=
    fun a ha hn => isPre_false_elim (h4h a ((mem_sufs_iff _ _).mpr ha) hn)
  have hn1 : ¬ SubOf (obfAt e.data)
      (pyReplace (collapseSpaces (pyReplace s.data ['\\', 'n'] [' ']))
        (obfAt e.data) e.data) :=
    pyReplace_no_sub _ _ _ hatne H1a H2a H3a H4a
  have hn1' : ¬ SubOf (obfAt e.data)
      (pyReplace (pyReplace (collapseSpaces (pyReplace s.data ['\\', 'n'] [' ']))
        (obfAt e.data) e.data) (obfHtml e.data) e.data) :=
    pyReplace_pres _ _ _ _ hhtmlne H2a H3a H1a H4a hn1
  have hn2 : ¬ SubOf (obfHtml e.data)
      (pyReplace (pyReplace (collapseSpaces (pyReplace s.data ['\\', 'n'] [' ']))
        (obfAt e.data) e.data) (obfHtml e.data) e.data) :=
    pyReplace_no_sub _ _ _ hhtmlne H1h H2h H3h H4h
  have hout : (clean_contact_info (some s)).data =
      pyStrip (pyReplace (pyReplace (collapseSpaces (pyReplace s.data ['\\', 'n'] [' ']))
        (obfAt e.data) e.data) (obfHtml e.data) e.data) := by
    simp only [clean_contact_info]
    rw [if_neg hsd, hemails]
    rfl
  refine ⟨rfl, rfl, ?_, ?_⟩
  · apply isSub_eq_false_of
    rw [hout]
    exact fun h => hn1' (pyStrip_sub h)
  · apply isSub_eq_false_of
    rw [hout]
    exact fun h => hn2 (pyStrip_sub h)

/-- Counterexample to C8 as stated: the email pattern detects `a@b.a`, whose
`[at]`-obfuscated occurrences in the field overlap each other; after the
leftmost one is replaced, the overlapping one survives with its `[at]`
intact, so the output still contains an obfuscated occurrence of a
detected email. -/
theorem c8_obfuscation_repair_counterexample :
    findallEmail ("a@b.a a[at]b.a[at]b.a").data = [("a@b.a").data] ∧
    clean_contact_info (some "a@b.a a[at]b.a[at]b.a") = "a@b.a a@b.a[at]b.a" ∧
    isSub (obfAt ("a@b.a").data)
      ((clean_contact_info (some "a@b.a a[at]b.a[at]b.a")).data) = true := by
  refine ⟨by decide, by decide, by decide⟩

/-- Witness for C8 at the spec's own example email. -/
theorem c8_obfuscation_repair_witness :
    isSub (obfAt ("jane@example.com").data)
      ((clean_contact_info
        (some "Contact: jane[at]example.com or jane@example.com")).data) = false ∧
    isSub (obfHtml ("jane@example.com").data)
      ((clean_contact_info
        (some "Contact: jane[at]example.com or jane@example.com")).data) = false := by
  have h := c8_obfuscation_repair
    "Contact: jane[at]example.com or jane@example.com" "jane@example.com"
    (by decide) (by decide) (by decide) (by decide) (by decide) (by decide)
    (by decide) (by decide) (by decide) (by decide) (by decide)
  exact ⟨h.2.2.1, h.2.2.2⟩

/-! ## LLM field extraction (`extract_fields_with_gemini`, src/app.py lines 239-311) -/

/-- The prefix of `l` up to and including its last `}` (`none` if `l` has
no `}`): the greedy tail of the regex `\{[\s\S]*\}`. -/
def takeToLastRBrace : List Char → Option (List Char)
  | [] => none
  | c :: rest =>
    match takeToLastRBrace rest with
    | some t => some (c :: t)
    | none => if c = '}' then some [c] else none

/-- `re.search(r'\{[\s\S]*\}', ·).group(0)`: the greedy match running from
the first `{` that has a later `}` up to the last `}` of the text. -/
def extractJsonMatch : List Char → Option (List Char)
  | [] => none
  | c :: rest =>
    if c = '{' then (takeToLastRBrace rest).map (fun m => c :: m)
    else extractJsonMatch rest

/-- Outcome of `model.generate_content(prompt)`: the response text, or an
exception message. -/
inductive GeminiOutcome where
  | text (t : String)
  | err (msg : String)

/-- `extract_fields_with_gemini` from src/app.py: regex-search the response
text for a `{...}` span and return it; no span is a hard failure with the
fixed message, and an exception yields a "Gemini processing error". -/
def extract_fields_with_gemini (outcome : GeminiOutcome) : Except String String :=
  match outcome with
  | .err m => .error ("Gemini processing error: " ++ m)
  | .text t =>
    match extractJsonMatch t.data with
    | some m => .ok (String.mk m)
    | none => .error "No valid JSON found in AI response"

/-- Modelled from the spec: the spec's phrase "locate the first balanced
`{...}` span in the response text" — scan to the first `{` and return the
span ending at its matching `}` with nesting tracked.  Used only to compare
the spec's description against the code's greedy regex. -/
def closeSpan : List Char → Nat → Option (List Char)
  | [], _ => none
  | c :: t, d =>
    if c = '{' then (closeSpan t (d + 1)).map (fun r => c :: r)
    else if c = '}' then
      (if d ≤ 1 then some [c] else (closeSpan t (d - 1)).map (fun r => c :: r))
    else (closeSpan t d).map (fun r => c :: r)

/-- Modelled from the spec: the first balanced `{...}` span of the text. -/
def specFirstBalancedSpan : List Char → Option (List Char)
  | [] => none
  | c :: t =>
    if c = '{' then (closeSpan t 1).map (fun r => c :: r)
    else specFirstBalancedSpan t

theorem takeToLastRBrace_none (l : List Char) :
    takeToLastRBrace l = none ↔ ∀ c ∈ l, c ≠ '}' := by
  induction l with
  | nil => simp [takeToLastRBrace]
  | cons c rest ih =>
    cases h : takeToLastRBrace rest with
    | some t =>
      simp only [takeToLastRBrace, h]
      constructor
      · intro hh; exact absurd hh (by simp)
      · intro hall
        have hr : takeToLastRBrace rest = none :=
          ih.mpr (fun x hx => hall x (by simp [hx]))
        rw [h] at hr
        exact absurd hr (by simp)
    | none =>
      simp only [takeToLastRBrace, h]
      by_cases hc : c = '}'
      · rw [if_pos hc]
        constructor
        · intro hh; exact absurd hh (by simp)
        · intro hall; exact absurd hc (hall c (by simp))
      · rw [if_neg hc]
        constructor
        · intro _ x hx
          rcases List.mem_cons.mp hx with rfl | hx'
          · exact hc
          · exact (ih.mp h) x hx'
        · intro _; rfl

theorem takeToLastRBrace_some (l : List Char) :
    ∀ m, takeToLastRBrace l = some m →
      ∃ v m', l = m ++ v ∧ m = m' ++ ['}'] ∧ ∀ c ∈ v, c ≠ '}' := by
  induction l with
  | nil => intro m h; cases h
  | cons c rest ih =>
    intro m h
    cases hr : takeToLastRBrace rest with
    | some t =>
      simp only [takeToLastRBrace, hr] at h
      injection h with h
      subst h
      obtain ⟨v, m', hv, hm', hvno⟩ := ih t hr
      exact ⟨v, c :: m', by simp [hv], by simp [hm'], hvno⟩
    | none =>
      simp only [takeToLastRBrace, hr] at h
      by_cases hc : c = '}'
      · rw [if_pos hc] at h
        injection h with h
        subst h
        exact ⟨rest, [], by simp, by simp [hc], (takeToLastRBrace_none rest).mp hr⟩
      · rw [if_neg hc] at h
        cases h

theorem extractJsonMatch_some (l : List Char) :
    ∀ m, extractJsonMatch l = some m →
      ∃ u v m', l = u ++ m ++ v ∧ m = '{' :: (m' ++ ['}']) ∧
        (∀ a ∈ u, a ≠ '{') ∧ (∀ b ∈ v, b ≠ '}') := by
  induction l with
  | nil => intro m h; cases h
  | cons c rest ih =>
    intro m h
    by_cases hc : c = '{'
    · subst hc
      simp only [extractJsonMatch, if_pos rfl] at h
      cases hr : takeToLastRBrace rest with
      | none => rw [hr] at h; cases h
      | some t =>
        rw [hr] at h
        simp only [Option.map_some'] at h
        injection h with h
        subst h
        obtain ⟨v, m', hv, hm', hvno⟩ := takeToLastRBrace_some rest t hr
        exact ⟨[], v, m', by simp [hv], by simp [hm'], by simp, hvno⟩
    · simp only [extractJsonMatch, if_neg hc] at h
      obtain ⟨u, v, m', hl, hm, hu, hv⟩ := ih m h
      refine ⟨c :: u, v, m', by simp [hl], hm, ?_, hv⟩
      intro a ha
      rcases List.mem_cons.mp ha with rfl | ha'
      · exact hc
      · exact hu a ha'

theorem extractJsonMatch_none (l : List Char) (h : extractJsonMatch l = none) :
    ∀ u v w, l ≠ u ++ '{' :: v ++ '}' :: w := by
  induction l with
  | nil =>
    intro u v w hl
    exact absurd hl.symm (by simp)
  | cons c rest ih =>
    intro u v w hl
    by_cases hc : c = '{'
    · subst hc
      simp only [extractJsonMatch, if_pos rfl] at h
      have hr : takeToLastRBrace rest = none := by
        cases hr : takeToLastRBrace rest with
        | none => rfl
        | some t => rw [hr] at h; cases h
      have hnall := (takeToLastRBrace_none rest).mp hr
      cases u with
      | nil =>
        rw [List.nil_append] at hl
        have h2 : rest = v ++ '}' :: w := (List.cons.inj hl).2
        have hmem : '}' ∈ rest := by rw [h2]; simp
        exact absurd rfl (hnall '}' hmem)
      | cons a u' =>
        rw [List.cons_append] at hl
        have h2 : rest = u' ++ '{' :: v ++ '}' :: w := (List.cons.inj hl).2
        have hmem : '}' ∈ rest := by rw [h2]; simp
        exact absurd rfl (hnall '}' hmem)
    · simp only [extractJsonMatch, if_neg hc] at h
      cases u with
      | nil =>
        rw [List.nil_append] at hl
        exact hc (List.cons.inj hl).1
      | cons a u' =>
        rw [List.cons_append] at hl
        exact ih h u' v w (List.cons.inj hl).2

/-- C2 (amended): the extraction step returns the greedy span running from
the first `{` (that has a later `}`) to the last `}` of the response text —
not the first balanced span — and when the response contains no
`{`-then-`}` pair at all it fails with "No valid JSON found in AI
response". -/
theorem c2_greedy_json_span (t : String) :
    (∀ m, extract_fields_with_gemini (.text t) = .ok m →
      ∃ u v m', t.data = u ++ m.data ++ v ∧ m.data = '{' :: (m' ++ ['}']) ∧
        (∀ a ∈ u, a ≠ '{') ∧ (∀ b ∈ v, b ≠ '}')) ∧
    ((¬ ∃ u v w, t.data = u ++ '{' :: v ++ '}' :: w) →
      extract_fields_with_gemini (.text t)
        = .error "No valid JSON found in AI response") := by
  constructor
  · intro m hm
    simp only [extract_fields_with_gemini] at hm
    cases hj : extractJsonMatch t.data with
    | none => rw [hj] at hm; cases hm
    | some mm =>
      rw [hj] at hm
      injection hm with hm
      obtain ⟨u, v, m', hl, hmm, hu, hv⟩ := extractJsonMatch_some _ mm hj
      subst hm
      exact ⟨u, v, m', hl, hmm, hu, hv⟩
  · intro hno
    simp only [extract_fields_with_gemini]
    cases hj : extractJsonMatch t.data with
    | none => rfl
    | some mm =>
      obtain ⟨u, v, m', hl, hmm, hu, hv⟩ := extractJsonMatch_some _ mm hj
      refine absurd ⟨u, m', v, ?_⟩ hno
      rw [hl, hmm]
      simp

/-- Counterexample to C2 as stated: on a response holding two small objects
the code returns the greedy span from the first `{` to the last `}`, while
the first balanced span (the spec's description) is just the first object;
the two differ. -/
theorem c2_greedy_json_span_counterexample :
    extract_fields_with_gemini (.text "{a} {b}") = .ok "{a} {b}" ∧
    specFirstBalancedSpan ("{a} {b}").data = some (("{a}").data) ∧
    ("{a} {b}" : String) ≠ "{a}" := by
  refine ⟨by decide, by decide, by decide⟩

/-- Witness for C2: a response with no JSON object fails with the fixed
error message. -/
theorem c2_greedy_json_span_witness :
    extract_fields_with_gemini (.text "no json here")
      = .error "No valid JSON found in AI response" := by
  apply (c2_greedy_json_span "no json here").2
  rintro ⟨u, v, w, h⟩
  have hmem : '{' ∈ ("no json here").data := by rw [h]; simp
  exact absurd hmem (by decide)

/-! ## Persistence step of `scrape_website` (src/app.py lines 401-420) -/

/-- Python dict assignment `d[k] = v` on an insertion-ordered association
list with unique keys: replace in place, or append. -/
def setField : List (String × String) → String → String → List (String × String)
  | [], k, v => [(k, v)]
  | (k', v') :: rest, k, v =>
    if k' = k then (k, v) :: rest else (k', v') :: setField rest k v

/-- Python `d.get(k)` (and `d[k]` where the key is known present). -/
def getField : List (String × String) → String → Option String
  | [], _ => none
  | (k', v') :: rest, k => if k' = k then some v' else getField rest k

/-- The record mutations of `scrape_website` between `json.loads` of the
LLM output and the store call: normalize `contact_email`, stamp
`updated_at`, overwrite `website` with the requested URL, and stamp
`created_at` on the insert branch only. -/
def preparedRecord (extracted : List (String × String)) (url : String)
    (isExisting : Bool) : List (String × String) :=
  let d1 := setField extracted "contact_email"
    (clean_contact_info (getField extracted "contact_email"))
  let d2 := setField d1 "updated_at" "now()"
  let d3 := setField d2 "website" url
  if isExisting then d3 else setField d3 "created_at" "now()"

theorem getField_setField_same (l : List (String × String)) (k v : String) :
    getField (setField l k v) k = some v := by
  induction l with
  | nil => simp [setField, getField]
  | cons p rest ih =>
    obtain ⟨k', v'⟩ := p
    by_cases hk : k' = k
    · simp [setField, getField, hk]
    · simp [setField, getField, hk, ih]

theorem getField_setField_other (l : List (String × String)) (k' v k : String)
    (h : k' ≠ k) : getField (setField l k' v) k = getField l k := by
  induction l with
  | nil => simp [setField, getField, h]
  | cons p rest ih =>
    obtain ⟨k0, v0⟩ := p
    by_cases hk : k0 = k'
    · simp [setField, getField, hk, h]
    · simp [setField, getField, hk, ih]

/-- C1: for every parsed LLM output and both store branches, the record that
reaches the store carries `website` equal to the originally requested URL,
whatever URL string the model returned. -/
theorem c1_website_forced (extracted : List (String × String)) (url : String)
    (isExisting : Bool) :
    getField (preparedRecord extracted url isExisting) "website" = some url := by
  cases isExisting with
  | true =>
    show getField (setField (setField (setField extracted "contact_email"
      (clean_contact_info (getField extracted "contact_email"))) "updated_at" "now()")
      "website" url) "website" = some url
    exact getField_setField_same _ _ _
  | false =>
    show getField (setField (setField (setField (setField extracted "contact_email"
      (clean_contact_info (getField extracted "contact_email"))) "updated_at" "now()")
      "website" url) "created_at" "now()") "website" = some url
    rw [getField_setField_other _ _ _ _ (by decide : "created_at" ≠ "website")]
    exact getField_setField_same _ _ _
